import Mathlib

/-!
Shallow embedding of the bigram-counting logic of the course notebook
(section "Final Example: Counting Bigrams in a Text File").

A word is a list of characters.  The dictionary-based counter brackets each
word with the start token "<S>" and the end token "<E>"; the 2D-array
counter brackets each word with the single boundary token ".".  Python
dicts are modelled as insertion-ordered key lists together with a value
function (for the count dict) or as association lists with overwrite
semantics (for stoi and itos).
-/

/-- The list of consecutive pairs of a list; models zip(chs, chs[1:]). -/
def pairsOf : List String → List (String × String)
  | a :: b :: t => (a, b) :: pairsOf (b :: t)
  | _ => []

/-- Token sequence of one word in the dictionary approach:
chs = ['<S>'] + list(w) + ['<E>']. -/
def sTok (w : List Char) : List String :=
  "<S>" :: (w.map String.singleton ++ ["<E>"])

/-- Token sequence of one word in the 2D-array approach:
chs = ['.'] + list(w) + ['.']. -/
def dTok (w : List Char) : List String :=
  "." :: (w.map String.singleton ++ ["."])

/-- All bigram occurrences of the corpus in the dictionary approach, in
program order (word by word, left to right). -/
def corpusPairsS (words : List (List Char)) : List (String × String) :=
  words.flatMap (fun w => pairsOf (sTok w))

/-- All bigram occurrences of the corpus in the 2D-array approach. -/
def corpusPairsD (words : List (List Char)) : List (String × String) :=
  words.flatMap (fun w => pairsOf (dTok w))

/-- A Python dict from bigram to count: the insertion-ordered key list plus
a total value function that is 0 outside the key list, matching
b.get(bigram, 0). -/
structure PyDict where
  keys : List (String × String)
  val : String × String → Nat

/-- b = ⦃⦄ : the empty dict. -/
def emptyDict : PyDict := ⟨[], fun _ => 0⟩

/-- One execution of b[bigram] = b.get(bigram, 0) + 1. -/
def dictIncr (d : PyDict) (p : String × String) : PyDict :=
  ⟨if p ∈ d.keys then d.keys else d.keys ++ [p],
   fun k => if k = p then d.val p + 1 else d.val k⟩

/-- The dictionary-approach bigram count over the whole corpus. -/
def countBigramsSparse (words : List (List Char)) : PyDict :=
  (corpusPairsS words).foldl dictIncr emptyDict

/-- b.items() in dict order. -/
def PyDict.items (d : PyDict) : List ((String × String) × Nat) :=
  d.keys.map fun k => (k, d.val k)

/-- sum(b.values()). -/
def valSum (d : PyDict) : Nat := (d.items.map (fun e => e.2)).sum

/-- chars = sorted(list(set(''.join(words)))): the sorted list of distinct
characters of the corpus, in code-point order. -/
def deriveAlphabet (words : List (List Char)) : List Char :=
  List.insertionSort (· ≤ ·) (words.flatMap id).dedup

/-- chars = ['.'] + chars, the alphabet used by the 2D-array cell. -/
def alphaFull (words : List (List Char)) : List String :=
  "." :: (deriveAlphabet words).map String.singleton

/-- Helper for the stoi dict: the last enumerate index of s wins, as in a
Python dict comprehension when a key repeats. -/
def stoiAux (s : String) : Nat → List String → Option Nat
  | _, [] => none
  | i, c :: cs =>
    match stoiAux s (i + 1) cs with
    | some j => some j
    | none => if c = s then some i else none

/-- stoi[s] as an Option: the index of s in chars, none when absent. -/
def stoiFun (chars : List String) (s : String) : Option Nat :=
  stoiAux s 0 chars

/-- The two error kinds named by the specification. -/
inductive BErr where
  | emptyCorpus
  | unknownSymbol
deriving DecidableEq

/-- N = np.zeros((n, n)). -/
def zeros : Nat → Nat → Nat := fun _ _ => 0

/-- N[i, j] += 1. -/
def bump (N : Nat → Nat → Nat) (i j : Nat) : Nat → Nat → Nat :=
  fun a b => if a = i ∧ b = j then N a b + 1 else N a b

/-- The counting loop of the 2D-array cell: each pair looks up ix1 = stoi[ch1]
and ix2 = stoi[ch2] and increments N[ix1, ix2]; a failed lookup (Python
KeyError, the spec's UnknownSymbol) aborts with no matrix returned. -/
def fillDense (stoi : String → Option Nat) :
    List (String × String) → (Nat → Nat → Nat) → Except BErr (Nat → Nat → Nat)
  | [], N => .ok N
  | (p, q) :: rest, N =>
    match stoi p with
    | none => .error .unknownSymbol
    | some i =>
      match stoi q with
      | none => .error .unknownSymbol
      | some j => fillDense stoi rest (bump N i j)

/-- The 2D-array bigram count, parameterised by the supplied alphabet as in
the specification (the notebook builds chars from the same corpus). -/
def countBigramsDense (words : List (List Char)) (chars : List String) :
    Except BErr (Nat → Nat → Nat) :=
  fillDense (stoiFun chars) (corpusPairsD words) zeros

/-- Sum of all cells of the n × n matrix. -/
def matTotal (n : Nat) (N : Nat → Nat → Nat) : Nat :=
  ∑ i ∈ Finset.range n, ∑ j ∈ Finset.range n, N i j

/-- A Python value that is either a string or an integer; dict keys and
values in the stoi / itos cells range over both. -/
inductive PyVal where
  | str (s : String)
  | int (n : Nat)
deriving DecidableEq

/-- Python dict assignment d[k] = v on an association list: overwrite in
place when the key exists, append otherwise. -/
def dset (d : List (PyVal × PyVal)) (k v : PyVal) : List (PyVal × PyVal) :=
  if d.any (fun e => e.1 = k) then d.map (fun e => if e.1 = k then (k, v) else e)
  else d ++ [(k, v)]

/-- stoi = the dict comprehension over enumerate(chars) mapping each
character string to its index. -/
def mkStoi (chars : List String) : List (PyVal × PyVal) :=
  (chars.enum).foldl (fun d p => dset d (.str p.2) (.int p.1)) []

/-- itos as written in the notebook: the comprehension iterates
stoi.items() binding the name i to the KEY and the name s to the VALUE, so
it re-inserts every (key, value) pair of stoi unchanged. -/
def mkItos (stoi : List (PyVal × PyVal)) : List (PyVal × PyVal) :=
  stoi.foldl (fun d p => dset d p.1 p.2) []

/-- Stable insertion by descending count: an entry passes over strictly
larger counts and stops before the first count less than or equal to its
own, so earlier entries stay before later entries with equal counts. -/
def pyInsert (x : (String × String) × Nat) :
    List ((String × String) × Nat) → List ((String × String) × Nat)
  | [] => [x]
  | b :: t => if x.2 < b.2 then b :: pyInsert x t else x :: b :: t

/-- Stable sort by descending count; extensionally equal to Python's stable
sorted(b.items(), key=lambda kv: -kv[1]). -/
def pySort : List ((String × String) × Nat) → List ((String × String) × Nat)
  | [] => []
  | x :: xs => pyInsert x (pySort xs)

/-- topBigrams(table, k) = sorted_bigrams[:k]. -/
def topBigrams (tbl : List ((String × String) × Nat)) (k : Nat) :
    List ((String × String) × Nat) :=
  (pySort tbl).take k

/-- Identifies the dictionary-approach boundary tokens with the 2D-array
boundary token ".". -/
def collapse (s : String) : String :=
  if s = "<S>" then "." else if s = "<E>" then "." else s

/-- Modelled from the spec (code-point lexicographic comparison of
character lists), used only to state the spec's tie-breaking order. -/
def charListLt : List Char → List Char → Bool
  | [], [] => false
  | [], _ :: _ => true
  | _ :: _, [] => false
  | a :: as, b :: bs => if a < b then true else if b < a then false else charListLt as bs

/-- Modelled from the spec: strict code-point lexicographic order on strings. -/
def strLtB (s t : String) : Bool := charListLt s.data t.data

/-- Modelled from the spec: ascending lexicographic order on bigram pairs. -/
def pairLeB (x y : String × String) : Bool :=
  strLtB x.1 y.1 || (x.1 == y.1 && (strLtB x.2 y.2 || x.2 == y.2))

/-- Modelled from the spec: entry a may precede entry b when its count is
strictly larger, or the counts tie and a's pair is lexicographically at
most b's pair. -/
def specEntryRel (a b : (String × String) × Nat) : Prop :=
  b.2 < a.2 ∨ (a.2 = b.2 ∧ pairLeB a.1 b.1 = true)

instance : DecidableRel specEntryRel := fun a b => by
  unfold specEntryRel; infer_instance

/-- Modelled from the spec: the output order claimed for topBigrams, count
descending with ties broken by ascending lexicographic pair order. -/
def SpecTieOrdered (l : List ((String × String) × Nat)) : Prop :=
  l.Pairwise specEntryRel

/-- Modelled from the spec: the cell-by-cell agreement statement of claim
C1 as written, requiring every sparse key with nonzero count to have both
components indexable in the dense alphabet. -/
def C1CellStatement (words : List (List Char)) : Prop :=
  ∀ p q, 0 < (countBigramsSparse words).val (p, q) →
    ∃ i j, stoiFun (alphaFull words) p = some i ∧
      stoiFun (alphaFull words) q = some j

-- Evaluation sanity checks on concrete inputs.
example : (countBigramsSparse [['a', 'b'], ['b', 'a']]).items =
    [(("<S>", "a"), 1), (("a", "b"), 1), (("b", "<E>"), 1),
     (("<S>", "b"), 1), (("b", "a"), 1), (("a", "<E>"), 1)] := by decide

example : deriveAlphabet [['b', 'a'], ['a']] = ['a', 'b'] := by decide

example : stoiFun (alphaFull [['a']]) "<S>" = none := by decide

example : stoiFun (alphaFull [['a']]) "." = some 0 := by decide

/-- Number of occurrences of the bigram k in a list of occurrences. -/
def occCount (k : String × String) : List (String × String) → Nat
  | [] => 0
  | p :: t => occCount k t + (if p = k then 1 else 0)

/-- Number of occurrences whose two stoi indices are exactly (i, j). -/
def idxCount (stoi : String → Option Nat) (i j : Nat) :
    List (String × String) → Nat
  | [] => 0
  | pr :: t =>
    idxCount stoi i j t +
      (if stoi pr.1 = some i ∧ stoi pr.2 = some j then 1 else 0)

/-- Applies a symbol renaming to both components of a bigram. -/
def pairMap (f : String → String) (pr : String × String) : String × String :=
  (f pr.1, f pr.2)

/-! ### Lemmas about occurrence counting -/

theorem occCount_pos_iff (k : String × String) (ps : List (String × String)) :
    0 < occCount k ps ↔ k ∈ ps := by
  induction ps with
  | nil => simp [occCount]
  | cons p t ih =>
    by_cases h : p = k
    · subst h; simp [occCount]
    · simp [occCount, h, ih, Ne.symm h]

theorem occCount_eq_zero_iff (k : String × String) (ps : List (String × String)) :
    occCount k ps = 0 ↔ k ∉ ps := by
  rw [← occCount_pos_iff]; omega

theorem sum_map_add (K : List (String × String)) (f g : String × String → Nat) :
    (K.map (fun k => f k + g k)).sum = (K.map f).sum + (K.map g).sum := by
  induction K with
  | nil => simp
  | cons a t ih => simp [ih]; omega

theorem sum_map_indicator (p : String × String) (K : List (String × String))
    (hnd : K.Nodup) :
    (K.map (fun k => if p = k then 1 else 0)).sum = if p ∈ K then 1 else 0 := by
  induction K with
  | nil => simp
  | cons a t ih =>
    rcases List.nodup_cons.mp hnd with ⟨ha, ht⟩
    by_cases h : p = a
    · subst h
      have hnp : p ∉ t := ha
      simp [ih ht, hnp]
    · simp [h, ih ht, Ne.symm h]

/-- Over a duplicate-free key list covering all occurrences, the per-key
occurrence counts sum to the total number of occurrences. -/
theorem sum_occCount_cover (ps : List (String × String)) :
    ∀ K : List (String × String), K.Nodup → (∀ x ∈ ps, x ∈ K) →
      (K.map (fun k => occCount k ps)).sum = ps.length := by
  induction ps with
  | nil => intro K _ _; simp [occCount]
  | cons p t ih =>
    intro K hnd hcov
    have h1 : (K.map (fun k => occCount k (p :: t))).sum
        = (K.map (fun k => occCount k t)).sum
          + (K.map (fun k => if p = k then 1 else 0)).sum := by
      rw [← sum_map_add]; rfl
    rw [h1, ih K hnd (fun x hx => hcov x (List.mem_cons_of_mem _ hx)),
      sum_map_indicator p K hnd, if_pos (hcov p (List.mem_cons_self _ _))]
    simp [List.length_cons]

/-! ### Lemmas about the dictionary-approach counter -/

theorem dictIncr_val (d : PyDict) (p k : String × String) :
    (dictIncr d p).val k = if k = p then d.val k + 1 else d.val k := by
  by_cases h : k = p
  · subst h; simp [dictIncr]
  · simp [dictIncr, h]

theorem dictIncr_mem_keys (d : PyDict) (p k : String × String) :
    k ∈ (dictIncr d p).keys ↔ k ∈ d.keys ∨ k = p := by
  by_cases h : p ∈ d.keys
  · simp only [dictIncr, if_pos h]
    constructor
    · exact Or.inl
    · rintro (hk | rfl)
      · exact hk
      · exact h
  · simp [dictIncr, if_neg h]

theorem dictIncr_keys_nodup (d : PyDict) (p : String × String)
    (h : d.keys.Nodup) : (dictIncr d p).keys.Nodup := by
  by_cases hp : p ∈ d.keys
  · simpa [dictIncr, if_pos hp] using h
  · simp only [dictIncr, if_neg hp]
    simpa [List.nodup_append] using ⟨h, fun hk => hp hk⟩

theorem foldl_dictIncr_val (ps : List (String × String)) :
    ∀ (d : PyDict) (k : String × String),
      ((ps.foldl dictIncr d).val k) = d.val k + occCount k ps := by
  induction ps with
  | nil => intro d k; simp [occCount]
  | cons p t ih =>
    intro d k
    rw [List.foldl_cons, ih, dictIncr_val]
    show _ = d.val k + (occCount k t + if p = k then 1 else 0)
    by_cases h : k = p
    · subst h; simp; omega
    · simp [h, Ne.symm h]

theorem foldl_dictIncr_mem_keys (ps : List (String × String)) :
    ∀ (d : PyDict) (k : String × String),
      (k ∈ (ps.foldl dictIncr d).keys ↔ k ∈ d.keys ∨ k ∈ ps) := by
  induction ps with
  | nil => intro d k; simp
  | cons p t ih =>
    intro d k
    rw [List.foldl_cons, ih, dictIncr_mem_keys]
    constructor
    · rintro ((hk | rfl) | ht)
      · exact Or.inl hk
      · exact Or.inr (List.mem_cons_self _ _)
      · exact Or.inr (List.mem_cons_of_mem _ ht)
    · rintro (hk | ht)
      · exact Or.inl (Or.inl hk)
      · rcases List.mem_cons.mp ht with rfl | ht
        · exact Or.inl (Or.inr rfl)
        · exact Or.inr ht

theorem foldl_dictIncr_keys_nodup (ps : List (String × String)) :
    ∀ (d : PyDict), d.keys.Nodup → (ps.foldl dictIncr d).keys.Nodup := by
  induction ps with
  | nil => intro d h; simpa using h
  | cons p t ih =>
    intro d h
    exact ih _ (dictIncr_keys_nodup d p h)

/-- The count stored under any key equals the number of occurrences of that
bigram in the corpus. -/
theorem sparse_val (words : List (List Char)) (k : String × String) :
    (countBigramsSparse words).val k = occCount k (corpusPairsS words) := by
  unfold countBigramsSparse
  rw [foldl_dictIncr_val]
  simp [emptyDict]

theorem sparse_mem_keys (words : List (List Char)) (k : String × String) :
    k ∈ (countBigramsSparse words).keys ↔ k ∈ corpusPairsS words := by
  unfold countBigramsSparse
  rw [foldl_dictIncr_mem_keys]
  simp [emptyDict]

theorem sparse_keys_nodup (words : List (List Char)) :
    (countBigramsSparse words).keys.Nodup := by
  unfold countBigramsSparse
  exact foldl_dictIncr_keys_nodup _ _ (by simp [emptyDict])

/-- sum(b.values()) equals the number of bigram occurrences of the corpus. -/
theorem sparse_valSum (words : List (List Char)) :
    valSum (countBigramsSparse words) = (corpusPairsS words).length := by
  unfold valSum PyDict.items
  rw [List.map_map]
  have h : ((fun e : (String × String) × Nat => e.2)
        ∘ fun k => (k, (countBigramsSparse words).val k))
      = fun k => occCount k (corpusPairsS words) := by
    funext k; simp [sparse_val]
  rw [h]
  exact sum_occCount_cover _ _ (sparse_keys_nodup words)
    (fun x hx => (sparse_mem_keys words x).mpr hx)

/-! ### Lemmas about the token pair lists -/

theorem pairsOf_length : ∀ l : List String, (pairsOf l).length = l.length - 1
  | [] => rfl
  | [_] => rfl
  | a :: b :: t => by
    show (pairsOf (b :: t)).length + 1 = (b :: t).length
    rw [pairsOf_length (b :: t)]
    simp

theorem sTok_pairs_length (w : List Char) :
    (pairsOf (sTok w)).length = w.length + 1 := by
  rw [pairsOf_length]
  simp [sTok]

theorem dTok_pairs_length (w : List Char) :
    (pairsOf (dTok w)).length = w.length + 1 := by
  rw [pairsOf_length]
  simp [dTok]

/-- Every consecutive pair of a bracketed token list has its first
component equal to the opening token or drawn from the middle, and its
second component equal to the closing token or drawn from the middle. -/
theorem pairsOf_bracket_mem (z : String) :
    ∀ (m : List String) (a p q : String),
      (p, q) ∈ pairsOf (a :: (m ++ [z])) →
      (p = a ∨ p ∈ m) ∧ (q = z ∨ q ∈ m) := by
  intro m
  induction m with
  | nil =>
    intro a p q h
    simp only [List.nil_append, pairsOf, List.mem_singleton, Prod.mk.injEq] at h
    exact ⟨Or.inl h.1, Or.inl h.2⟩
  | cons c m' ih =>
    intro a p q h
    simp only [List.cons_append, pairsOf, List.mem_cons, Prod.mk.injEq] at h
    rcases h with ⟨rfl, rfl⟩ | h
    · exact ⟨Or.inl rfl, Or.inr (List.mem_cons_self _ _)⟩
    · rcases ih c p q h with ⟨h1, h2⟩
      refine ⟨?_, ?_⟩
      · rcases h1 with rfl | h1
        · exact Or.inr (List.mem_cons_self _ _)
        · exact Or.inr (List.mem_cons_of_mem _ h1)
      · rcases h2 with rfl | h2
        · exact Or.inl rfl
        · exact Or.inr (List.mem_cons_of_mem _ h2)

theorem pairsOf_bracket_exists (z : String) :
    ∀ (m : List String) (a c : String), c ∈ m →
      ∃ p, (p, c) ∈ pairsOf (a :: (m ++ [z])) := by
  intro m
  induction m with
  | nil => intro a c h; exact absurd h (List.not_mem_nil c)
  | cons c0 m' ih =>
    intro a c h
    rcases List.mem_cons.mp h with rfl | h
    · exact ⟨a, by simp [pairsOf]⟩
    · rcases ih c0 c h with ⟨p, hp⟩
      exact ⟨p, by simp only [List.cons_append, pairsOf, List.mem_cons]; exact Or.inr hp⟩

theorem pairsOf_map (f : String → String) :
    ∀ l : List String, pairsOf (l.map f) = (pairsOf l).map (pairMap f)
  | [] => rfl
  | [_] => rfl
  | a :: b :: t => by
    show (f a, f b) :: pairsOf ((b :: t).map f)
        = pairMap f (a, b) :: (pairsOf (b :: t)).map (pairMap f)
    rw [pairsOf_map f (b :: t)]
    rfl

/-! ### Lemmas about the boundary-token renaming -/

theorem singleton_ne_S (c : Char) : String.singleton c ≠ "<S>" := by
  intro h
  have h2 : [c] = ['<', 'S', '>'] := by
    simpa [String.singleton] using congrArg String.data h
  simp at h2

theorem singleton_ne_E (c : Char) : String.singleton c ≠ "<E>" := by
  intro h
  have h2 : [c] = ['<', 'E', '>'] := by
    simpa [String.singleton] using congrArg String.data h
  simp at h2

theorem singleton_eq_dot_iff (c : Char) : String.singleton c = "." ↔ c = '.' := by
  constructor
  · intro h
    have h2 : [c] = ['.'] := by
      simpa [String.singleton] using congrArg String.data h
    simpa using h2
  · rintro rfl; rfl

theorem singleton_inj {c c' : Char} :
    String.singleton c = String.singleton c' → c = c' := by
  intro h
  have h2 : [c] = [c'] := by
    simpa [String.singleton] using congrArg String.data h
  simpa using h2

theorem collapse_singleton (c : Char) :
    collapse (String.singleton c) = String.singleton c := by
  unfold collapse
  rw [if_neg (singleton_ne_S c), if_neg (singleton_ne_E c)]

theorem dTok_eq (w : List Char) : dTok w = (sTok w).map collapse := by
  have h1 : collapse "<S>" = "." := by decide
  have h2 : collapse "<E>" = "." := by decide
  have h3 : (w.map String.singleton).map collapse = w.map String.singleton := by
    rw [List.map_map]
    exact List.map_congr_left (fun c _ => collapse_singleton c)
  simp only [dTok, sTok, List.map_cons, List.map_append, h1, h3]
  simp [h2]

theorem corpusPairsD_eq (words : List (List Char)) :
    corpusPairsD words = (corpusPairsS words).map (pairMap collapse) := by
  unfold corpusPairsS corpusPairsD
  rw [List.map_flatMap]
  congr 1
  funext w
  rw [dTok_eq, pairsOf_map]

/-! ### Lemmas about the stoi index lookup -/

theorem stoiAux_le (s : String) :
    ∀ (l : List String) (i j : Nat), stoiAux s i l = some j → i ≤ j := by
  intro l
  induction l with
  | nil => intro i j h; exact absurd h (by simp [stoiAux])
  | cons c cs ih =>
    intro i j h
    unfold stoiAux at h
    cases h' : stoiAux s (i + 1) cs with
    | some j' =>
      rw [h'] at h
      cases h
      exact Nat.le_of_succ_le (ih (i + 1) j h')
    | none =>
      rw [h'] at h
      by_cases hc : c = s
      · rw [if_pos hc] at h
        cases h
        exact Nat.le_refl _
      · rw [if_neg hc] at h
        cases h

theorem stoiAux_none_iff (s : String) :
    ∀ (l : List String) (i : Nat), stoiAux s i l = none ↔ s ∉ l := by
  intro l
  induction l with
  | nil => intro i; simp [stoiAux]
  | cons c cs ih =>
    intro i
    unfold stoiAux
    cases h' : stoiAux s (i + 1) cs with
    | some j' =>
      have : s ∈ cs := by
        by_contra hmem
        rw [← ih (i + 1)] at hmem
        rw [h'] at hmem
        cases hmem
      simp [this]
    | none =>
      have hmem : s ∉ cs := (ih (i + 1)).mp h'
      by_cases hc : c = s
      · simp [hc, if_pos]
      · simp [if_neg hc, List.mem_cons, Ne.symm hc, hmem]

theorem stoiAux_get (s : String) :
    ∀ (l : List String) (i j : Nat), stoiAux s i l = some j →
      l.get? (j - i) = some s := by
  intro l
  induction l with
  | nil => intro i j h; exact absurd h (by simp [stoiAux])
  | cons c cs ih =>
    intro i j h
    unfold stoiAux at h
    cases h' : stoiAux s (i + 1) cs with
    | some j' =>
      rw [h'] at h
      cases h
      have hle : i + 1 ≤ j := stoiAux_le s cs (i + 1) j h'
      have hji : j - i = (j - (i + 1)) + 1 := by omega
      rw [hji]
      simpa using ih (i + 1) j h'
    | none =>
      rw [h'] at h
      by_cases hc : c = s
      · rw [if_pos hc] at h
        cases h
        simp [hc]
      · rw [if_neg hc] at h
        cases h

theorem stoiFun_get {chars : List String} {s : String} {j : Nat}
    (h : stoiFun chars s = some j) : chars.get? j = some s := by
  have := stoiAux_get s chars 0 j h
  simpa using this

theorem stoiFun_lt {chars : List String} {s : String} {j : Nat}
    (h : stoiFun chars s = some j) : j < chars.length := by
  rcases List.get?_eq_some.mp (stoiFun_get h) with ⟨hlt, _⟩
  exact hlt

theorem stoiFun_none_iff (chars : List String) (s : String) :
    stoiFun chars s = none ↔ s ∉ chars :=
  stoiAux_none_iff s chars 0

theorem stoiFun_isSome_of_mem {chars : List String} {s : String}
    (h : s ∈ chars) : ∃ j, stoiFun chars s = some j := by
  cases hj : stoiFun chars s with
  | none => exact absurd ((stoiFun_none_iff chars s).mp hj) (by simp [h])
  | some j => exact ⟨j, rfl⟩

theorem stoiFun_inj {chars : List String} {s t : String} {j : Nat}
    (hs : stoiFun chars s = some j) (ht : stoiFun chars t = some j) : s = t := by
  have h1 := stoiFun_get hs
  have h2 := stoiFun_get ht
  rw [h1] at h2
  cases h2
  rfl

theorem stoiFun_head {x : String} {rest : List String} (h : x ∉ rest) :
    stoiFun (x :: rest) x = some 0 := by
  unfold stoiFun stoiAux
  rw [(stoiAux_none_iff x rest 1).mpr h, if_pos rfl]

/-! ### Lemmas about the 2D-array counter -/

theorem fillDense_ok (stoi : String → Option Nat) :
    ∀ (ps : List (String × String)) (N0 : Nat → Nat → Nat),
      (∀ pr ∈ ps, (stoi pr.1).isSome ∧ (stoi pr.2).isSome) →
      ∃ N, fillDense stoi ps N0 = .ok N ∧
        ∀ i j, N i j = N0 i j + idxCount stoi i j ps := by
  intro ps
  induction ps with
  | nil =>
    intro N0 _
    exact ⟨N0, rfl, fun i j => by simp [idxCount]⟩
  | cons pr rest ih =>
    intro N0 hsome
    obtain ⟨p, q⟩ := pr
    obtain ⟨hp, hq⟩ := hsome (p, q) (List.mem_cons_self _ _)
    obtain ⟨a, ha⟩ := Option.isSome_iff_exists.mp hp
    obtain ⟨b, hb⟩ := Option.isSome_iff_exists.mp hq
    obtain ⟨N, hok, hchar⟩ :=
      ih (bump N0 a b) (fun x hx => hsome x (List.mem_cons_of_mem _ hx))
    refine ⟨N, ?_, ?_⟩
    · simp only [fillDense, ha, hb]
      exact hok
    · intro i j
      rw [hchar i j]
      show bump N0 a b i j + idxCount stoi i j rest
          = N0 i j + (idxCount stoi i j rest
            + if stoi p = some i ∧ stoi q = some j then 1 else 0)
      rw [ha, hb]
      unfold bump
      simp only [Option.some.injEq]
      by_cases H : i = a ∧ j = b
      · rw [if_pos H, if_pos ⟨H.1.symm, H.2.symm⟩]
        omega
      · rw [if_neg H, if_neg (fun hc => H ⟨hc.1.symm, hc.2.symm⟩)]
        omega

theorem fillDense_error (stoi : String → Option Nat) :
    ∀ (ps : List (String × String)) (N0 : Nat → Nat → Nat),
      (∃ pr ∈ ps, stoi pr.1 = none ∨ stoi pr.2 = none) →
      fillDense stoi ps N0 = .error .unknownSymbol := by
  intro ps
  induction ps with
  | nil => intro N0 h; simp at h
  | cons pr rest ih =>
    intro N0 h
    obtain ⟨p, q⟩ := pr
    cases hp : stoi p with
    | none => simp [fillDense, hp]
    | some a =>
      cases hq : stoi q with
      | none => simp [fillDense, hp, hq]
      | some b =>
        simp only [fillDense, hp, hq]
        apply ih
        rcases h with ⟨x, hx, hnone⟩
        rcases List.mem_cons.mp hx with rfl | hx
        · rcases hnone with h1 | h1
          · rw [hp] at h1; cases h1
          · rw [hq] at h1; cases h1
        · exact ⟨x, hx, hnone⟩

theorem sum_idxCount (stoi : String → Option Nat) (n : Nat) :
    ∀ ps : List (String × String),
      (∀ pr ∈ ps, ∃ a b, stoi pr.1 = some a ∧ stoi pr.2 = some b ∧ a < n ∧ b < n) →
      (∑ i ∈ Finset.range n, ∑ j ∈ Finset.range n, idxCount stoi i j ps)
        = ps.length := by
  intro ps
  induction ps with
  | nil => intro _; simp [idxCount]
  | cons pr rest ih =>
    intro hb
    obtain ⟨a, b, ha, hbq, han, hbn⟩ := hb pr (List.mem_cons_self _ _)
    have hrest := ih (fun x hx => hb x (List.mem_cons_of_mem _ hx))
    have hsplit : ∀ i j, idxCount stoi i j (pr :: rest)
        = idxCount stoi i j rest
          + (if a = i then (if b = j then 1 else 0) else 0) := by
      intro i j
      show idxCount stoi i j rest
          + (if stoi pr.1 = some i ∧ stoi pr.2 = some j then 1 else 0) = _
      rw [ha, hbq]
      congr 1
      by_cases hia : a = i
      · by_cases hjb : b = j
        · subst hia; subst hjb; simp
        · subst hia
          have : ¬(some a = some a ∧ some b = some j) := by
            simp; intro hc; exact hjb hc
          simp [this, hjb]
      · have : ¬(some a = some i ∧ some b = some j) := by
          intro hc; exact hia (Option.some.inj hc.1)
        simp [this, hia]
    calc (∑ i ∈ Finset.range n, ∑ j ∈ Finset.range n,
            idxCount stoi i j (pr :: rest))
        = (∑ i ∈ Finset.range n, ∑ j ∈ Finset.range n,
            (idxCount stoi i j rest
              + (if a = i then (if b = j then 1 else 0) else 0))) := by
          apply Finset.sum_congr rfl
          intro i _
          apply Finset.sum_congr rfl
          intro j _
          exact hsplit i j
      _ = (∑ i ∈ Finset.range n, ∑ j ∈ Finset.range n, idxCount stoi i j rest)
            + (∑ i ∈ Finset.range n, ∑ j ∈ Finset.range n,
                (if a = i then (if b = j then 1 else 0) else 0)) := by
          rw [← Finset.sum_add_distrib]
          apply Finset.sum_congr rfl
          intro i _
          rw [← Finset.sum_add_distrib]
      _ = rest.length + 1 := by
          rw [hrest]
          congr 1
          have hinner : ∀ i ∈ Finset.range n,
              (∑ j ∈ Finset.range n,
                (if a = i then (if b = j then 1 else 0) else 0))
              = (if a = i then 1 else 0) := by
            intro i _
            by_cases hia : a = i
            · have h1 : (∑ j ∈ Finset.range n,
                  (if a = i then (if b = j then 1 else 0) else 0))
                  = ∑ j ∈ Finset.range n, (if b = j then 1 else 0) :=
                Finset.sum_congr rfl (fun j _ => if_pos hia)
              rw [h1, Finset.sum_ite_eq, if_pos (Finset.mem_range.mpr hbn),
                if_pos hia]
            · have h1 : (∑ j ∈ Finset.range n,
                  (if a = i then (if b = j then 1 else 0) else 0))
                  = ∑ j ∈ Finset.range n, (0 : Nat) :=
                Finset.sum_congr rfl (fun j _ => if_neg hia)
              rw [h1, Finset.sum_const, if_neg hia]
              simp
          rw [Finset.sum_congr rfl hinner, Finset.sum_ite_eq,
            if_pos (Finset.mem_range.mpr han)]
      _ = (pr :: rest).length := by simp

/-! ### Lemmas about the derived alphabet -/

theorem mem_deriveAlphabet (words : List (List Char)) (c : Char) :
    c ∈ deriveAlphabet words ↔ ∃ w ∈ words, c ∈ w := by
  unfold deriveAlphabet
  rw [(List.perm_insertionSort _ _).mem_iff, List.mem_dedup, List.mem_flatMap]
  simp

theorem deriveAlphabet_nodup (words : List (List Char)) :
    (deriveAlphabet words).Nodup := by
  unfold deriveAlphabet
  exact (List.perm_insertionSort _ _).nodup_iff.mpr (List.nodup_dedup _)

theorem deriveAlphabet_sorted (words : List (List Char)) :
    (deriveAlphabet words).Sorted (· ≤ ·) :=
  List.sorted_insertionSort _ _

theorem mem_alphaFull (words : List (List Char)) (s : String) :
    s ∈ alphaFull words ↔
      s = "." ∨ ∃ c, (∃ w ∈ words, c ∈ w) ∧ s = String.singleton c := by
  unfold alphaFull
  simp only [List.mem_cons, List.mem_map]
  constructor
  · rintro (rfl | ⟨c, hc, rfl⟩)
    · exact Or.inl rfl
    · exact Or.inr ⟨c, (mem_deriveAlphabet words c).mp hc, rfl⟩
  · rintro (rfl | ⟨c, hc, rfl⟩)
    · exact Or.inl rfl
    · exact Or.inr ⟨c, (mem_deriveAlphabet words c).mpr hc, rfl⟩

theorem alphaFull_nodup (words : List (List Char))
    (hdot : ∀ w ∈ words, ('.' : Char) ∉ w) : (alphaFull words).Nodup := by
  unfold alphaFull
  rw [List.nodup_cons]
  constructor
  · intro hmem
    rcases List.mem_map.mp hmem with ⟨c, hc, hcs⟩
    rcases (mem_deriveAlphabet words c).mp hc with ⟨w, hw, hcw⟩
    have : c = '.' := (singleton_eq_dot_iff c).mp hcs
    subst this
    exact hdot w hw hcw
  · exact (deriveAlphabet_nodup words).map (fun _ _ h => singleton_inj h)

/-! ### Structure of the bigram occurrences -/

theorem mem_corpusPairsS_struct {words : List (List Char)} {p q : String}
    (h : (p, q) ∈ corpusPairsS words) :
    (p = "<S>" ∨ ∃ c, (∃ w ∈ words, c ∈ w) ∧ p = String.singleton c) ∧
    (q = "<E>" ∨ ∃ c, (∃ w ∈ words, c ∈ w) ∧ q = String.singleton c) := by
  rcases List.mem_flatMap.mp h with ⟨w, hw, hpq⟩
  have := pairsOf_bracket_mem "<E>" (w.map String.singleton) "<S>" p q hpq
  rcases this with ⟨h1, h2⟩
  constructor
  · rcases h1 with rfl | h1
    · exact Or.inl rfl
    · rcases List.mem_map.mp h1 with ⟨c, hc, rfl⟩
      exact Or.inr ⟨c, ⟨w, hw, hc⟩, rfl⟩
  · rcases h2 with rfl | h2
    · exact Or.inl rfl
    · rcases List.mem_map.mp h2 with ⟨c, hc, rfl⟩
      exact Or.inr ⟨c, ⟨w, hw, hc⟩, rfl⟩

theorem collapse_mem_alphaFull {words : List (List Char)} {s : String}
    (hs : s = "<S>" ∨ s = "<E>" ∨ ∃ c, (∃ w ∈ words, c ∈ w) ∧ s = String.singleton c) :
    collapse s ∈ alphaFull words := by
  rcases hs with rfl | rfl | ⟨c, hc, rfl⟩
  · exact List.mem_cons_self _ _
  · exact List.mem_cons_self _ _
  · rw [collapse_singleton]
    exact (mem_alphaFull words _).mpr (Or.inr ⟨c, hc, rfl⟩)

/-- On symbols that occur as the first component of a dictionary-approach
bigram of a dot-free corpus, the boundary renaming is injective. -/
theorem collapse_inj_start {words : List (List Char)}
    (hdot : ∀ w ∈ words, ('.' : Char) ∉ w) {p p' : String}
    (hp : p = "<S>" ∨ ∃ c, (∃ w ∈ words, c ∈ w) ∧ p = String.singleton c)
    (hp' : p' = "<S>" ∨ ∃ c, (∃ w ∈ words, c ∈ w) ∧ p' = String.singleton c)
    (h : collapse p = collapse p') : p = p' := by
  have hdotc : ∀ c, (∃ w ∈ words, c ∈ w) → c ≠ '.' := by
    rintro c ⟨w, hw, hc⟩ rfl
    exact hdot w hw hc
  rcases hp with rfl | ⟨c, hc, rfl⟩ <;> rcases hp' with rfl | ⟨c', hc', rfl⟩
  · rfl
  · rw [show collapse "<S>" = "." from by decide, collapse_singleton] at h
    exact absurd ((singleton_eq_dot_iff c').mp h.symm) (hdotc c' hc')
  · rw [show collapse "<S>" = "." from by decide, collapse_singleton] at h
    exact absurd ((singleton_eq_dot_iff c).mp h) (hdotc c hc)
  · rw [collapse_singleton, collapse_singleton] at h
    exact h

/-- Same for symbols that occur as the second component of a bigram. -/
theorem collapse_inj_end {words : List (List Char)}
    (hdot : ∀ w ∈ words, ('.' : Char) ∉ w) {q q' : String}
    (hq : q = "<E>" ∨ ∃ c, (∃ w ∈ words, c ∈ w) ∧ q = String.singleton c)
    (hq' : q' = "<E>" ∨ ∃ c, (∃ w ∈ words, c ∈ w) ∧ q' = String.singleton c)
    (h : collapse q = collapse q') : q = q' := by
  have hdotc : ∀ c, (∃ w ∈ words, c ∈ w) → c ≠ '.' := by
    rintro c ⟨w, hw, hc⟩ rfl
    exact hdot w hw hc
  rcases hq with rfl | ⟨c, hc, rfl⟩ <;> rcases hq' with rfl | ⟨c', hc', rfl⟩
  · rfl
  · rw [show collapse "<E>" = "." from by decide, collapse_singleton] at h
    exact absurd ((singleton_eq_dot_iff c').mp h.symm) (hdotc c' hc')
  · rw [show collapse "<E>" = "." from by decide, collapse_singleton] at h
    exact absurd ((singleton_eq_dot_iff c).mp h) (hdotc c hc)
  · rw [collapse_singleton, collapse_singleton] at h
    exact h

/-- The boundary renaming is injective on the bigrams that actually occur
in a dot-free corpus. -/
theorem collapse_pair_inj {words : List (List Char)}
    (hdot : ∀ w ∈ words, ('.' : Char) ∉ w) {k k' : String × String}
    (hk : k ∈ corpusPairsS words) (hk' : k' ∈ corpusPairsS words)
    (h : pairMap collapse k' = pairMap collapse k) : k' = k := by
  obtain ⟨p, q⟩ := k
  obtain ⟨p', q'⟩ := k'
  rcases mem_corpusPairsS_struct hk with ⟨hp, hq⟩
  rcases mem_corpusPairsS_struct hk' with ⟨hp', hq'⟩
  have h1 : collapse p' = collapse p := congrArg Prod.fst h
  have h2 : collapse q' = collapse q := congrArg Prod.snd h
  rw [collapse_inj_start hdot hp' hp h1, collapse_inj_end hdot hq' hq h2]

/-! ### Occurrence counts under the renaming -/

theorem occCount_map_inj (f : String × String → String × String) (k : String × String) :
    ∀ ps : List (String × String), (∀ a ∈ ps, f a = f k → a = k) →
      occCount (f k) (ps.map f) = occCount k ps := by
  intro ps
  induction ps with
  | nil => intro _; rfl
  | cons a t ih =>
    intro h
    show occCount (f k) (t.map f) + (if f a = f k then 1 else 0)
        = occCount k t + (if a = k then 1 else 0)
    rw [ih (fun x hx => h x (List.mem_cons_of_mem _ hx))]
    congr 1
    by_cases ha : a = k
    · rw [if_pos ha, if_pos (congrArg f ha)]
    · rw [if_neg ha, if_neg (fun hc => ha (h a (List.mem_cons_self _ _) hc))]

theorem idxCount_eq_occCount {chars : List String} {i j : Nat} {ph qh : String}
    (hp : stoiFun chars ph = some i) (hq : stoiFun chars qh = some j) :
    ∀ ps : List (String × String),
      idxCount (stoiFun chars) i j ps = occCount (ph, qh) ps := by
  have hiff : ∀ pr : String × String,
      (stoiFun chars pr.1 = some i ∧ stoiFun chars pr.2 = some j) ↔ pr = (ph, qh) := by
    intro pr
    constructor
    · rintro ⟨h1, h2⟩
      have e1 : pr.1 = ph := stoiFun_inj h1 hp
      have e2 : pr.2 = qh := stoiFun_inj h2 hq
      exact Prod.ext e1 e2
    · rintro rfl
      exact ⟨hp, hq⟩
  intro ps
  induction ps with
  | nil => rfl
  | cons pr t ih =>
    show idxCount (stoiFun chars) i j t
        + (if stoiFun chars pr.1 = some i ∧ stoiFun chars pr.2 = some j then 1 else 0)
        = occCount (ph, qh) t + (if pr = (ph, qh) then 1 else 0)
    rw [ih]
    congr 1
    by_cases hc : pr = (ph, qh)
    · rw [if_pos hc, if_pos ((hiff pr).mpr hc)]
    · rw [if_neg hc, if_neg (fun hx => hc ((hiff pr).mp hx))]

theorem idxCount_pos_iff (stoi : String → Option Nat) (i j : Nat) :
    ∀ ps : List (String × String),
      0 < idxCount stoi i j ps ↔
        ∃ pr ∈ ps, stoi pr.1 = some i ∧ stoi pr.2 = some j := by
  intro ps
  induction ps with
  | nil => simp [idxCount]
  | cons pr t ih =>
    show 0 < idxCount stoi i j t + (if stoi pr.1 = some i ∧ stoi pr.2 = some j then 1 else 0) ↔ _
    by_cases hc : stoi pr.1 = some i ∧ stoi pr.2 = some j
    · simp [hc]
    · simp only [if_neg hc, Nat.add_zero, ih, List.mem_cons]
      constructor
      · rintro ⟨x, hx, hs⟩
        exact ⟨x, Or.inr hx, hs⟩
      · rintro ⟨x, hx, hs⟩
        rcases hx with rfl | hx
        · exact absurd hs hc
        · exact ⟨x, hx, hs⟩

/-! ### Corpus-level helper lemmas -/

theorem sum_map_len_succ (words : List (List Char)) :
    (words.map (fun w => w.length + 1)).sum
      = (words.map List.length).sum + words.length := by
  induction words with
  | nil => rfl
  | cons w t ih => simp [ih]; omega

theorem corpusPairsS_length (words : List (List Char)) :
    (corpusPairsS words).length = (words.map List.length).sum + words.length := by
  unfold corpusPairsS
  rw [List.length_flatMap]
  have h : (List.map (List.length ∘ fun w => pairsOf (sTok w)) words)
      = words.map (fun w => w.length + 1) := by
    apply List.map_congr_left
    intro w _
    exact sTok_pairs_length w
  rw [h, sum_map_len_succ]

theorem corpusPairsD_length (words : List (List Char)) :
    (corpusPairsD words).length = (corpusPairsS words).length := by
  rw [corpusPairsD_eq, List.length_map]

theorem corpusPairsD_symbols {words : List (List Char)} {pr : String × String}
    (h : pr ∈ corpusPairsD words) :
    pr.1 ∈ alphaFull words ∧ pr.2 ∈ alphaFull words := by
  rw [corpusPairsD_eq] at h
  rcases List.mem_map.mp h with ⟨k, hk, rfl⟩
  obtain ⟨p, q⟩ := k
  rcases mem_corpusPairsS_struct hk with ⟨h1, h2⟩
  constructor
  · apply collapse_mem_alphaFull
    rcases h1 with rfl | h1
    · exact Or.inl rfl
    · exact Or.inr (Or.inr h1)
  · apply collapse_mem_alphaFull
    rcases h2 with rfl | h2
    · exact Or.inr (Or.inl rfl)
    · exact Or.inr (Or.inr h2)

theorem dense_ok_derived (words : List (List Char)) :
    ∃ N, countBigramsDense words (alphaFull words) = Except.ok N ∧
      ∀ i j, N i j = idxCount (stoiFun (alphaFull words)) i j (corpusPairsD words) := by
  have hsome : ∀ pr ∈ corpusPairsD words,
      ((stoiFun (alphaFull words) pr.1).isSome = true)
        ∧ ((stoiFun (alphaFull words) pr.2).isSome = true) := by
    intro pr hpr
    rcases corpusPairsD_symbols hpr with ⟨h1, h2⟩
    rcases stoiFun_isSome_of_mem h1 with ⟨i, hi⟩
    rcases stoiFun_isSome_of_mem h2 with ⟨j, hj⟩
    rw [hi, hj]
    exact ⟨rfl, rfl⟩
  obtain ⟨N, hok, hchar⟩ := fillDense_ok _ (corpusPairsD words) zeros hsome
  exact ⟨N, hok, fun i j => by rw [hchar i j]; simp [zeros]⟩

theorem dense_total_derived (words : List (List Char)) :
    ∃ N, countBigramsDense words (alphaFull words) = Except.ok N ∧
      matTotal (alphaFull words).length N = (corpusPairsD words).length := by
  obtain ⟨N, hok, hchar⟩ := dense_ok_derived words
  refine ⟨N, hok, ?_⟩
  unfold matTotal
  have hb : ∀ pr ∈ corpusPairsD words,
      ∃ a b, stoiFun (alphaFull words) pr.1 = some a
        ∧ stoiFun (alphaFull words) pr.2 = some b
        ∧ a < (alphaFull words).length ∧ b < (alphaFull words).length := by
    intro pr hpr
    rcases corpusPairsD_symbols hpr with ⟨h1, h2⟩
    rcases stoiFun_isSome_of_mem h1 with ⟨a, ha⟩
    rcases stoiFun_isSome_of_mem h2 with ⟨b, hbq⟩
    exact ⟨a, b, ha, hbq, stoiFun_lt ha, stoiFun_lt hbq⟩
  rw [Finset.sum_congr rfl (fun i _ => Finset.sum_congr rfl (fun j _ => hchar i j))]
  exact sum_idxCount _ _ _ hb

/-! ### Claim C1 -/

/-- C1 counterexample: at the one-word corpus ["a"], the bigram
("<S>", "a") has sparse count 1, but the dictionary-approach start token
"<S>" has no index in the dense alphabet [".", "a"], so the claimed
cell-by-cell correspondence between the two representations is false as
stated: the sparse keys use "<S>"/"<E>" while the dense matrix is indexed
by the "."-boundary alphabet. -/
theorem claim_C1_counterexample : ¬ C1CellStatement [['a']] := by
  intro h
  obtain ⟨i, j, hi, hj⟩ := h "<S>" "a" (by decide)
  have hnone : stoiFun (alphaFull [['a']]) "<S>" = none := by decide
  rw [hnone] at hi
  cases hi

/-- C1 (amended): for a corpus whose words do not contain the boundary
character '.', after identifying the start/end tokens "<S>"/"<E>" with the
dense boundary "." the two representations agree cell by cell: every
bigram with a nonzero sparse count names the dense cell holding the same
count, every dense cell not named this way is zero, and the totals of the
two representations are equal. -/
theorem claim_C1 (words : List (List Char))
    (hdot : ∀ w ∈ words, ('.' : Char) ∉ w) :
    ∃ N, countBigramsDense words (alphaFull words) = Except.ok N ∧
      (∀ p q, 0 < (countBigramsSparse words).val (p, q) →
        ∃ i j, stoiFun (alphaFull words) (collapse p) = some i ∧
          stoiFun (alphaFull words) (collapse q) = some j ∧
          N i j = (countBigramsSparse words).val (p, q)) ∧
      (∀ i j, (¬ ∃ p q, 0 < (countBigramsSparse words).val (p, q) ∧
          stoiFun (alphaFull words) (collapse p) = some i ∧
          stoiFun (alphaFull words) (collapse q) = some j) → N i j = 0) ∧
      matTotal (alphaFull words).length N = valSum (countBigramsSparse words) := by
  obtain ⟨N, hok, hchar⟩ := dense_ok_derived words
  obtain ⟨N', hok', htot⟩ := dense_total_derived words
  have hNN : N = N' := by
    rw [hok] at hok'
    exact Except.ok.inj hok'
  rw [← hNN] at htot
  refine ⟨N, hok, ?_, ?_, ?_⟩
  · intro p q hpos
    rw [sparse_val] at hpos
    have hmem : (p, q) ∈ corpusPairsS words := (occCount_pos_iff _ _).mp hpos
    rcases mem_corpusPairsS_struct hmem with ⟨h1, h2⟩
    have hcp : collapse p ∈ alphaFull words := by
      apply collapse_mem_alphaFull
      rcases h1 with rfl | h1
      · exact Or.inl rfl
      · exact Or.inr (Or.inr h1)
    have hcq : collapse q ∈ alphaFull words := by
      apply collapse_mem_alphaFull
      rcases h2 with rfl | h2
      · exact Or.inr (Or.inl rfl)
      · exact Or.inr (Or.inr h2)
    obtain ⟨i, hi⟩ := stoiFun_isSome_of_mem hcp
    obtain ⟨j, hj⟩ := stoiFun_isSome_of_mem hcq
    refine ⟨i, j, hi, hj, ?_⟩
    rw [hchar i j, idxCount_eq_occCount hi hj, corpusPairsD_eq]
    have : ((collapse p, collapse q) : String × String)
        = pairMap collapse (p, q) := rfl
    rw [this, occCount_map_inj (pairMap collapse) (p, q) (corpusPairsS words)
      (fun a ha hfa => collapse_pair_inj hdot hmem ha hfa), sparse_val]
  · intro i j hno
    apply Nat.eq_zero_of_not_pos
    intro hpos
    rw [hchar i j] at hpos
    obtain ⟨pr, hpr, hs1, hs2⟩ := (idxCount_pos_iff _ _ _ _).mp hpos
    rw [corpusPairsD_eq] at hpr
    rcases List.mem_map.mp hpr with ⟨k, hk, rfl⟩
    obtain ⟨p, q⟩ := k
    apply hno
    refine ⟨p, q, ?_, hs1, hs2⟩
    rw [sparse_val]
    exact (occCount_pos_iff _ _).mpr hk
  · rw [htot, corpusPairsD_length, sparse_valSum]

/-- Witness instantiating C1 at the two-word corpus ["ab", "ba"]. -/
theorem claim_C1_witness :
    (∀ w ∈ [['a', 'b'], ['b', 'a']], ('.' : Char) ∉ w) ∧
    (∃ N, countBigramsDense [['a', 'b'], ['b', 'a']]
          (alphaFull [['a', 'b'], ['b', 'a']]) = Except.ok N ∧
      (∀ p q, 0 < (countBigramsSparse [['a', 'b'], ['b', 'a']]).val (p, q) →
        ∃ i j, stoiFun (alphaFull [['a', 'b'], ['b', 'a']]) (collapse p) = some i ∧
          stoiFun (alphaFull [['a', 'b'], ['b', 'a']]) (collapse q) = some j ∧
          N i j = (countBigramsSparse [['a', 'b'], ['b', 'a']]).val (p, q)) ∧
      (∀ i j, (¬ ∃ p q,
          0 < (countBigramsSparse [['a', 'b'], ['b', 'a']]).val (p, q) ∧
          stoiFun (alphaFull [['a', 'b'], ['b', 'a']]) (collapse p) = some i ∧
          stoiFun (alphaFull [['a', 'b'], ['b', 'a']]) (collapse q) = some j) →
          N i j = 0) ∧
      matTotal (alphaFull [['a', 'b'], ['b', 'a']]).length N
        = valSum (countBigramsSparse [['a', 'b'], ['b', 'a']])) :=
  ⟨by decide, claim_C1 [['a', 'b'], ['b', 'a']] (by decide)⟩

/-! ### Claim C2 -/

/-- C2: the total count over the sparse table (and equally over the dense
matrix built against the derived alphabet) is C + W, because each word of
length L contributes exactly L + 1 bigrams. -/
theorem claim_C2 (words : List (List Char)) :
    valSum (countBigramsSparse words)
        = (words.map List.length).sum + words.length ∧
    (∀ w : List Char, (pairsOf (sTok w)).length = w.length + 1) ∧
    (∃ N, countBigramsDense words (alphaFull words) = Except.ok N ∧
      matTotal (alphaFull words).length N
        = (words.map List.length).sum + words.length) := by
  refine ⟨?_, sTok_pairs_length, ?_⟩
  · rw [sparse_valSum, corpusPairsS_length]
  · obtain ⟨N, hok, htot⟩ := dense_total_derived words
    exact ⟨N, hok, by rw [htot, corpusPairsD_length, corpusPairsS_length]⟩

/-! ### Claim C3 -/

/-- C3 counterexample: on the empty corpus nothing fails with EmptyCorpus:
alphabet derivation silently returns the empty list, the dictionary count
silently returns an empty table, and the dense builder returns the
all-zero matrix over the boundary-only alphabet instead of an error. -/
theorem claim_C3_counterexample :
    deriveAlphabet [] = [] ∧
    (countBigramsSparse []).items = [] ∧
    countBigramsDense [] (alphaFull []) = Except.ok zeros ∧
    countBigramsDense [] (alphaFull []) ≠ Except.error BErr.emptyCorpus := by
  refine ⟨rfl, rfl, rfl, ?_⟩
  intro h
  have h2 : (Except.ok zeros : Except BErr (Nat → Nat → Nat))
      = Except.error BErr.emptyCorpus := h
  cases h2

/-- C3 (amended): the code contains no EmptyCorpus check: on the empty
word list deriveAlphabet returns the empty alphabet, countBigramsSparse
returns the empty table, and countBigramsDense succeeds over the
boundary-only alphabet ["."], returning the all-zero matrix. -/
theorem claim_C3 :
    deriveAlphabet [] = [] ∧
    countBigramsSparse [] = emptyDict ∧
    alphaFull [] = ["."] ∧
    countBigramsDense [] (alphaFull []) = Except.ok zeros :=
  ⟨rfl, rfl, rfl, rfl⟩

/-! ### Claim C4 -/

/-- C4: with the boundary "." present in the supplied alphabet (the
specification's input contract for countBigramsDense), the dense builder
fails with UnknownSymbol — returning no matrix — whenever some word
contains a character absent from the alphabet, and returns a matrix when
every character of every word is in the alphabet. -/
theorem claim_C4 (words : List (List Char)) (chars : List String)
    (hb : "." ∈ chars) :
    ((∃ w ∈ words, ∃ c ∈ w, String.singleton c ∉ chars) →
      countBigramsDense words chars = Except.error BErr.unknownSymbol) ∧
    ((∀ w ∈ words, ∀ c ∈ w, String.singleton c ∈ chars) →
      ∃ N, countBigramsDense words chars = Except.ok N) := by
  constructor
  · rintro ⟨w, hw, c, hc, habs⟩
    apply fillDense_error
    have hcm : String.singleton c ∈ w.map String.singleton :=
      List.mem_map_of_mem _ hc
    obtain ⟨p, hp⟩ := pairsOf_bracket_exists "." (w.map String.singleton) "."
      (String.singleton c) hcm
    refine ⟨(p, String.singleton c), List.mem_flatMap.mpr ⟨w, hw, hp⟩, Or.inr ?_⟩
    exact (stoiFun_none_iff chars _).mpr habs
  · intro hcov
    have hsome : ∀ pr ∈ corpusPairsD words,
        ((stoiFun chars pr.1).isSome = true)
          ∧ ((stoiFun chars pr.2).isSome = true) := by
      intro pr hpr
      obtain ⟨p, q⟩ := pr
      rcases List.mem_flatMap.mp hpr with ⟨w, hw, hp⟩
      have hmem := pairsOf_bracket_mem "." (w.map String.singleton) "." p q hp
      have hpc : p ∈ chars := by
        rcases hmem.1 with rfl | h1
        · exact hb
        · rcases List.mem_map.mp h1 with ⟨c, hc, rfl⟩
          exact hcov w hw c hc
      have hqc : q ∈ chars := by
        rcases hmem.2 with rfl | h2
        · exact hb
        · rcases List.mem_map.mp h2 with ⟨c, hc, rfl⟩
          exact hcov w hw c hc
      rcases stoiFun_isSome_of_mem hpc with ⟨i, hi⟩
      rcases stoiFun_isSome_of_mem hqc with ⟨j, hj⟩
      rw [hi, hj]
      exact ⟨rfl, rfl⟩
    obtain ⟨N, hok, _⟩ := fillDense_ok _ _ zeros hsome
    exact ⟨N, hok⟩

/-- Witness instantiating C4 at the corpus ["ab"] with alphabet
[".", "a"]: the word contains 'b' which is absent, so the builder fails
with UnknownSymbol; and at the full alphabet [".", "a", "b"] it succeeds. -/
theorem claim_C4_witness :
    (("." : String) ∈ [".", "a"] ∧
      (((∃ w ∈ [['a', 'b']], ∃ c ∈ w, String.singleton c ∉ [".", "a"]) →
        countBigramsDense [['a', 'b']] [".", "a"]
          = Except.error BErr.unknownSymbol) ∧
      ((∀ w ∈ [['a', 'b']], ∀ c ∈ w, String.singleton c ∈ [".", "a"]) →
        ∃ N, countBigramsDense [['a', 'b']] [".", "a"] = Except.ok N))) ∧
    countBigramsDense [['a', 'b']] [".", "a"]
      = Except.error BErr.unknownSymbol :=
  ⟨⟨by decide, claim_C4 [['a', 'b']] [".", "a"] (by decide)⟩,
    (claim_C4 [['a', 'b']] [".", "a"] (by decide)).1
      ⟨['a', 'b'], by decide, 'b', by decide, by decide⟩⟩

/-! ### Lemmas about the stoi / itos dict cells -/

theorem dset_of_fresh (d : List (PyVal × PyVal)) (k v : PyVal)
    (h : ∀ e ∈ d, e.1 ≠ k) : dset d k v = d ++ [(k, v)] := by
  unfold dset
  rw [if_neg]
  simp only [List.any_eq_true, decide_eq_true_eq, not_exists]
  intro e
  intro hc
  exact h e hc.1 hc.2

theorem dset_mem {d : List (PyVal × PyVal)} {k v : PyVal} {e : PyVal × PyVal}
    (h : e ∈ dset d k v) : e ∈ d ∨ e = (k, v) := by
  unfold dset at h
  by_cases hc : (d.any (fun e => e.1 = k)) = true
  · rw [if_pos hc] at h
    rcases List.mem_map.mp h with ⟨e', he', hev⟩
    by_cases h1 : e'.1 = k
    · rw [if_pos h1] at hev
      exact Or.inr hev.symm
    · rw [if_neg h1] at hev
      exact Or.inl (hev ▸ he')
  · rw [if_neg hc] at h
    rcases List.mem_append.mp h with h1 | h1
    · exact Or.inl h1
    · exact Or.inr (List.mem_singleton.mp h1)

theorem dset_keys_nodup {d : List (PyVal × PyVal)} (k v : PyVal)
    (h : (d.map Prod.fst).Nodup) : ((dset d k v).map Prod.fst).Nodup := by
  unfold dset
  by_cases hc : (d.any (fun e => e.1 = k)) = true
  · rw [if_pos hc, List.map_map]
    have heq : d.map (Prod.fst ∘ fun e => if e.1 = k then (k, v) else e)
        = d.map Prod.fst := by
      apply List.map_congr_left
      intro e _
      show Prod.fst (if e.1 = k then (k, v) else e) = e.1
      by_cases h1 : e.1 = k
      · rw [if_pos h1, h1]
      · rw [if_neg h1]
    rw [heq]
    exact h
  · rw [if_neg hc, List.map_append]
    rw [List.nodup_append]
    refine ⟨h, List.nodup_singleton _, ?_⟩
    intro x hx hxk
    rcases List.mem_singleton.mp hxk with rfl
    simp only [List.any_eq_true, decide_eq_true_eq, not_exists] at hc
    rcases List.mem_map.mp hx with ⟨e, he, hek⟩
    exact hc e ⟨he, hek⟩

theorem foldl_dset_keys_nodup :
    ∀ (us : List (PyVal × PyVal)) (d0 : List (PyVal × PyVal)),
      (d0.map Prod.fst).Nodup →
      ((us.foldl (fun d p => dset d p.1 p.2) d0).map Prod.fst).Nodup := by
  intro us
  induction us with
  | nil => intro d0 h; exact h
  | cons u t ih =>
    intro d0 h
    rw [List.foldl_cons]
    exact ih _ (dset_keys_nodup u.1 u.2 h)

theorem foldl_dset_keys :
    ∀ (us : List (PyVal × PyVal)) (d0 : List (PyVal × PyVal))
      (e : PyVal × PyVal),
      e ∈ us.foldl (fun d p => dset d p.1 p.2) d0 →
      e ∈ d0 ∨ ∃ u ∈ us, e.1 = u.1 := by
  intro us
  induction us with
  | nil => intro d0 e h; exact Or.inl h
  | cons u t ih =>
    intro d0 e h
    rw [List.foldl_cons] at h
    rcases ih _ e h with h1 | ⟨u', hu', h1⟩
    · rcases dset_mem h1 with h2 | rfl
      · exact Or.inl h2
      · exact Or.inr ⟨u, List.mem_cons_self _ _, rfl⟩
    · exact Or.inr ⟨u', List.mem_cons_of_mem _ hu', h1⟩

theorem foldl_dset_append :
    ∀ (l : List (PyVal × PyVal)) (d0 : List (PyVal × PyVal)),
      (l.map Prod.fst).Nodup →
      (∀ k ∈ l.map Prod.fst, ∀ e ∈ d0, e.1 ≠ k) →
      l.foldl (fun d p => dset d p.1 p.2) d0 = d0 ++ l := by
  intro l
  induction l with
  | nil => intro d0 _ _; simp
  | cons u t ih =>
    intro d0 hnd hdisj
    obtain ⟨k, v⟩ := u
    rw [List.map_cons] at hnd
    rcases List.nodup_cons.mp hnd with ⟨hk, ht⟩
    rw [List.foldl_cons]
    show (t.foldl (fun d p => dset d p.1 p.2) (dset d0 k v)) = _
    have h1 : dset d0 k v = d0 ++ [(k, v)] :=
      dset_of_fresh d0 k v (fun e he => hdisj k (by simp) e he)
    rw [h1, ih (d0 ++ [(k, v)]) ht ?_]
    · simp
    · intro k' hk' e he hek
      rcases List.mem_append.mp he with h2 | h2
      · exact hdisj k' (by simp [hk']) e h2 hek
      · rcases List.mem_singleton.mp h2 with rfl
        have hkk : k = k' := hek
        subst hkk
        exact hk hk'

theorem mkStoi_eq (chars : List String) :
    mkStoi chars = ((chars.enum).map
        (fun p => (PyVal.str p.2, PyVal.int p.1))).foldl
      (fun d pr => dset d pr.1 pr.2) [] := by
  unfold mkStoi
  rw [List.foldl_map]

theorem mkStoi_keys_nodup (chars : List String) :
    ((mkStoi chars).map Prod.fst).Nodup := by
  rw [mkStoi_eq]
  exact foldl_dset_keys_nodup _ [] (by simp)

theorem mkStoi_keys_str (chars : List String) :
    ∀ e ∈ mkStoi chars, ∃ s, e.1 = PyVal.str s := by
  intro e he
  rw [mkStoi_eq] at he
  rcases foldl_dset_keys _ [] e he with h | ⟨u, hu, h⟩
  · cases h
  · rcases List.mem_map.mp hu with ⟨p, _, rfl⟩
    exact ⟨p.2, h⟩

theorem mkItos_eq_self (stoi : List (PyVal × PyVal))
    (h : (stoi.map Prod.fst).Nodup) : mkItos stoi = stoi := by
  unfold mkItos
  rw [foldl_dset_append stoi [] h (fun k _ e he => absurd he (List.not_mem_nil e))]
  simp

theorem lookup_int_none (n : Nat) :
    ∀ d : List (PyVal × PyVal), (∀ e ∈ d, ∃ s, e.1 = PyVal.str s) →
      d.lookup (PyVal.int n) = none := by
  intro d
  induction d with
  | nil => intro _; rfl
  | cons e t ih =>
    intro h
    obtain ⟨s, hs⟩ := h e (List.mem_cons_self _ _)
    obtain ⟨k, v⟩ := e
    simp only at hs
    subst hs
    show List.lookup (PyVal.int n) ((PyVal.str s, v) :: t) = none
    have hstep : List.lookup (PyVal.int n) ((PyVal.str s, v) :: t)
        = List.lookup (PyVal.int n) t := rfl
    rw [hstep]
    exact ih (fun x hx => h x (List.mem_cons_of_mem _ hx))

/-! ### Claim C6 -/

/-- C6: the itos dict built by the dense-table cell equals the stoi dict
itself rather than its inverse: the comprehension re-inserts every
(key, value) pair of stoi unchanged, so every string key of stoi looks up
the same value in itos, and itos holds no integer key at all, making it
useless for recovering a symbol from a matrix index. -/
theorem claim_C6 (chars : List String) :
    mkItos (mkStoi chars) = mkStoi chars ∧
    (∀ c : String, c ∈ chars →
      (mkItos (mkStoi chars)).lookup (PyVal.str c)
        = (mkStoi chars).lookup (PyVal.str c)) ∧
    (∀ n : Nat, (mkItos (mkStoi chars)).lookup (PyVal.int n) = none) := by
  have heq : mkItos (mkStoi chars) = mkStoi chars :=
    mkItos_eq_self _ (mkStoi_keys_nodup chars)
  refine ⟨heq, fun c _ => by rw [heq], fun n => ?_⟩
  rw [heq]
  exact lookup_int_none n _ (mkStoi_keys_str chars)

/-- Witness instantiating C6 at the alphabet [".", "a"]. -/
theorem claim_C6_witness :
    mkItos (mkStoi [".", "a"]) = mkStoi [".", "a"] ∧
    (∀ c : String, c ∈ [".", "a"] →
      (mkItos (mkStoi [".", "a"])).lookup (PyVal.str c)
        = (mkStoi [".", "a"]).lookup (PyVal.str c)) ∧
    (∀ n : Nat, (mkItos (mkStoi [".", "a"])).lookup (PyVal.int n) = none) :=
  claim_C6 [".", "a"]

/-! ### Lemmas about the ranking of bigrams -/

theorem pyInsert_perm (x : (String × String) × Nat) :
    ∀ l, (pyInsert x l).Perm (x :: l) := by
  intro l
  induction l with
  | nil => exact List.Perm.refl _
  | cons b t ih =>
    show (if x.2 < b.2 then b :: pyInsert x t else x :: b :: t).Perm _
    by_cases h : x.2 < b.2
    · rw [if_pos h]
      exact (ih.cons b).trans (List.Perm.swap x b t)
    · rw [if_neg h]

theorem pySort_perm : ∀ l, (pySort l).Perm l := by
  intro l
  induction l with
  | nil => exact List.Perm.refl _
  | cons x t ih =>
    show (pyInsert x (pySort t)).Perm (x :: t)
    exact (pyInsert_perm x (pySort t)).trans (ih.cons x)

theorem pyInsert_sorted (x : (String × String) × Nat) :
    ∀ l, l.Pairwise (fun a b => b.2 ≤ a.2) →
      (pyInsert x l).Pairwise (fun a b => b.2 ≤ a.2) := by
  intro l
  induction l with
  | nil => intro _; simp [pyInsert]
  | cons b t ih =>
    intro h
    rcases List.pairwise_cons.mp h with ⟨hb, ht⟩
    show (if x.2 < b.2 then b :: pyInsert x t else x :: b :: t).Pairwise _
    by_cases hx : x.2 < b.2
    · rw [if_pos hx]
      apply List.pairwise_cons.mpr
      refine ⟨?_, ih ht⟩
      intro y hy
      rcases List.mem_cons.mp ((pyInsert_perm x t).mem_iff.mp hy) with rfl | hyt
      · exact Nat.le_of_lt hx
      · exact hb y hyt
    · rw [if_neg hx]
      apply List.pairwise_cons.mpr
      refine ⟨?_, h⟩
      intro y hy
      rcases List.mem_cons.mp hy with rfl | hyt
      · exact Nat.le_of_not_lt hx
      · exact Nat.le_trans (hb y hyt) (Nat.le_of_not_lt hx)

theorem pySort_sorted : ∀ l, (pySort l).Pairwise (fun a b => b.2 ≤ a.2) := by
  intro l
  induction l with
  | nil => simp [pySort]
  | cons x t ih => exact pyInsert_sorted x (pySort t) ih

/-- Stability of the stable insertion: filtering at any fixed count value
commutes with the insertion, because the entries an element passes over all
carry strictly larger counts. -/
theorem pyInsert_filter (x : (String × String) × Nat) (c : Nat) :
    ∀ l, (pyInsert x l).filter (fun e => e.2 == c)
      = ((x :: l).filter (fun e => e.2 == c)) := by
  intro l
  induction l with
  | nil => rfl
  | cons b t ih =>
    show (if x.2 < b.2 then b :: pyInsert x t else x :: b :: t).filter _ = _
    by_cases h : x.2 < b.2
    · rw [if_pos h]
      by_cases hbv : b.2 = c
      · have hxv : ¬ x.2 = c := by omega
        simp [List.filter_cons, hbv, hxv, ih]
      · simp [List.filter_cons, hbv, ih]
    · rw [if_neg h]

/-- Stability of the whole sort: entries with any given count keep their
original relative order. -/
theorem pySort_filter (c : Nat) :
    ∀ l, (pySort l).filter (fun e => e.2 == c) = l.filter (fun e => e.2 == c) := by
  intro l
  induction l with
  | nil => rfl
  | cons x t ih =>
    show (pyInsert x (pySort t)).filter _ = _
    rw [pyInsert_filter]
    by_cases hx : x.2 = c
    · simp [List.filter_cons, hx, ih]
    · simp [List.filter_cons, hx, ih]

/-! ### Claim C5 -/

/-- C5 counterexample: at the one-word corpus ["ba"] all three bigrams tie
with count 1; the code's sort keeps the dict insertion order
("<S>","b"), ("b","a"), ("a","<E>"), which is NOT the ascending
lexicographic order on pairs that the claim demands (("a","<E>") precedes
("b","a") lexicographically). -/
theorem claim_C5_counterexample :
    topBigrams (countBigramsSparse [['b', 'a']]).items 3
      = [(("<S>", "b"), 1), (("b", "a"), 1), (("a", "<E>"), 1)] ∧
    ¬ SpecTieOrdered (topBigrams (countBigramsSparse [['b', 'a']]).items 3) := by
  constructor
  · decide
  · unfold SpecTieOrdered
    decide

/-- C5 (amended): topBigrams(table, k) returns the first
min(k, number of entries) entries of the table sorted by count descending
with ties kept in the table's insertion order (the sort is stable); it
never fails, returns [] for k = 0, and returns all entries (fully sorted)
for k at least the table's size. -/
theorem claim_C5 (tbl : List ((String × String) × Nat)) (k : Nat) :
    (topBigrams tbl k).length = min k tbl.length ∧
    (topBigrams tbl k).Pairwise (fun a b => b.2 ≤ a.2) ∧
    (pySort tbl).Perm tbl ∧
    (∀ c : Nat, (pySort tbl).filter (fun e => e.2 == c)
        = tbl.filter (fun e => e.2 == c)) ∧
    topBigrams tbl 0 = [] ∧
    (tbl.length ≤ k → topBigrams tbl k = pySort tbl) := by
  refine ⟨?_, ?_, pySort_perm tbl, fun c => pySort_filter c tbl, rfl, ?_⟩
  · show (List.take k (pySort tbl)).length = _
    rw [List.length_take, (pySort_perm tbl).length_eq]
  · exact List.Pairwise.sublist (List.take_sublist _ _) (pySort_sorted tbl)
  · intro h
    show List.take k (pySort tbl) = pySort tbl
    exact List.take_of_length_le (by rw [(pySort_perm tbl).length_eq]; exact h)

/-- Witness instantiating C5 at a three-entry table with k = 5. -/
theorem claim_C5_witness :
    (topBigrams [(("a", "b"), 2), (("b", "a"), 1), (("a", "a"), 2)] 5).length
        = min 5 ([(("a", "b"), 2), (("b", "a"), 1), (("a", "a"), 2)] :
            List ((String × String) × Nat)).length ∧
    (topBigrams [(("a", "b"), 2), (("b", "a"), 1), (("a", "a"), 2)] 5).Pairwise
        (fun a b => b.2 ≤ a.2) ∧
    (pySort [(("a", "b"), 2), (("b", "a"), 1), (("a", "a"), 2)]).Perm
        [(("a", "b"), 2), (("b", "a"), 1), (("a", "a"), 2)] ∧
    (∀ c : Nat,
      (pySort [(("a", "b"), 2), (("b", "a"), 1), (("a", "a"), 2)]).filter
          (fun e => e.2 == c)
        = [(("a", "b"), 2), (("b", "a"), 1), (("a", "a"), 2)].filter
            (fun e => e.2 == c)) ∧
    topBigrams [(("a", "b"), 2), (("b", "a"), 1), (("a", "a"), 2)] 0 = [] ∧
    (([(("a", "b"), 2), (("b", "a"), 1), (("a", "a"), 2)] :
        List ((String × String) × Nat)).length ≤ 5 →
      topBigrams [(("a", "b"), 2), (("b", "a"), 1), (("a", "a"), 2)] 5
        = pySort [(("a", "b"), 2), (("b", "a"), 1), (("a", "a"), 2)]) :=
  claim_C5 [(("a", "b"), 2), (("b", "a"), 1), (("a", "a"), 2)] 5

/-! ### Claim C7 -/

/-- C7: for a non-empty word list, deriveAlphabet returns exactly the set
of distinct characters appearing in any input word, sorted in code-point
order, with each character appearing exactly once. -/
theorem claim_C7 (words : List (List Char)) (hne : words ≠ []) :
    (∀ c, c ∈ deriveAlphabet words ↔ ∃ w ∈ words, c ∈ w) ∧
    (deriveAlphabet words).Sorted (· ≤ ·) ∧
    (deriveAlphabet words).Nodup :=
  ⟨fun c => mem_deriveAlphabet words c, deriveAlphabet_sorted words,
    deriveAlphabet_nodup words⟩

/-- Witness instantiating C7 at the corpus ["ba", "a"]. -/
theorem claim_C7_witness :
    ([['b', 'a'], ['a']] : List (List Char)) ≠ [] ∧
    ((∀ c, c ∈ deriveAlphabet [['b', 'a'], ['a']]
        ↔ ∃ w ∈ [['b', 'a'], ['a']], c ∈ w) ∧
     (deriveAlphabet [['b', 'a'], ['a']]).Sorted (· ≤ ·) ∧
     (deriveAlphabet [['b', 'a'], ['a']]).Nodup) :=
  ⟨by decide, claim_C7 [['b', 'a'], ['a']] (by decide)⟩

/-! ### Claim C8 -/

theorem corpusPairsD_stoi_some {words : List (List Char)} {chars : List String}
    (hb : "." ∈ chars)
    (hcov : ∀ w ∈ words, ∀ c ∈ w, String.singleton c ∈ chars) :
    ∀ pr ∈ corpusPairsD words,
      ((stoiFun chars pr.1).isSome = true)
        ∧ ((stoiFun chars pr.2).isSome = true) := by
  intro pr hpr
  obtain ⟨p, q⟩ := pr
  rcases List.mem_flatMap.mp hpr with ⟨w, hw, hp⟩
  have hmem := pairsOf_bracket_mem "." (w.map String.singleton) "." p q hp
  have hpc : p ∈ chars := by
    rcases hmem.1 with rfl | h1
    · exact hb
    · rcases List.mem_map.mp h1 with ⟨c, hc, rfl⟩
      exact hcov w hw c hc
  have hqc : q ∈ chars := by
    rcases hmem.2 with rfl | h2
    · exact hb
    · rcases List.mem_map.mp h2 with ⟨c, hc, rfl⟩
      exact hcov w hw c hc
  rcases stoiFun_isSome_of_mem hpc with ⟨i, hi⟩
  rcases stoiFun_isSome_of_mem hqc with ⟨j, hj⟩
  rw [hi, hj]
  exact ⟨rfl, rfl⟩

/-- C8: for a word list drawn from the supplied alphabet, with the
boundary "." at index 0 and not repeated, the dense builder succeeds; the
boundary indexes to 0, every cell (i, j) holds exactly the number of
bigram occurrences whose two stoi indices are (i, j) — so all cells start
at zero and each occurrence increments exactly one cell — and every
nonzero cell lies inside the |alphabet| × |alphabet| square. -/
theorem claim_C8 (words : List (List Char)) (rest : List String)
    (hcov : ∀ w ∈ words, ∀ c ∈ w, String.singleton c ∈ "." :: rest)
    (hnd : ("." : String) ∉ rest) :
    stoiFun ("." :: rest) "." = some 0 ∧
    ∃ N, countBigramsDense words ("." :: rest) = Except.ok N ∧
      (∀ i j, N i j = idxCount (stoiFun ("." :: rest)) i j (corpusPairsD words)) ∧
      (∀ i j, 0 < N i j →
        i < ("." :: rest).length ∧ j < ("." :: rest).length) := by
  refine ⟨stoiFun_head hnd, ?_⟩
  obtain ⟨N, hok, hchar⟩ := fillDense_ok _ (corpusPairsD words) zeros
    (corpusPairsD_stoi_some (List.mem_cons_self _ _) hcov)
  refine ⟨N, hok, ?_, ?_⟩
  · intro i j
    rw [hchar i j]
    simp [zeros]
  · intro i j hpos
    rw [hchar i j] at hpos
    simp only [zeros, Nat.zero_add] at hpos
    obtain ⟨pr, _, hs1, hs2⟩ := (idxCount_pos_iff _ _ _ _).mp hpos
    exact ⟨stoiFun_lt hs1, stoiFun_lt hs2⟩

/-- Witness instantiating C8 at the corpus ["a"] with alphabet [".", "a"]. -/
theorem claim_C8_witness :
    ((∀ w ∈ [['a']], ∀ c ∈ w, String.singleton c ∈ ["."] ++ ["a"]) ∧
      ("." : String) ∉ ["a"]) ∧
    (stoiFun ("." :: ["a"]) "." = some 0 ∧
    ∃ N, countBigramsDense [['a']] ("." :: ["a"]) = Except.ok N ∧
      (∀ i j, N i j
        = idxCount (stoiFun ("." :: ["a"])) i j (corpusPairsD [['a']])) ∧
      (∀ i j, 0 < N i j →
        i < ("." :: ["a"]).length ∧ j < ("." :: ["a"]).length)) :=
  ⟨⟨by decide, by decide⟩, claim_C8 [['a']] ["a"] (by decide) (by decide)⟩

/-! ### Claim C9 -/

/-- C9: every entry of the sparse table has count at least 1; no explicit
zero-count entry is ever stored. -/
theorem claim_C9 (words : List (List Char)) (e : (String × String) × Nat)
    (he : e ∈ (countBigramsSparse words).items) : 1 ≤ e.2 := by
  rcases List.mem_map.mp he with ⟨k, hk, rfl⟩
  show 1 ≤ (countBigramsSparse words).val k
  rw [sparse_val]
  exact (occCount_pos_iff _ _).mpr ((sparse_mem_keys words k).mp hk)

/-- Witness instantiating C9 at the corpus ["a"] and its first entry. -/
theorem claim_C9_witness :
    ((("<S>", "a"), 1) ∈ (countBigramsSparse [['a']]).items) ∧
    1 ≤ (((("<S>", "a"), 1) : (String × String) × Nat)).2 :=
  ⟨by decide, claim_C9 [['a']] (("<S>", "a"), 1) (by decide)⟩

/-! ### Claim C10 -/

/-- C10: countBigramsSparse is deterministic and depends only on its
input: equal word lists produce equal tables, and the stored count under
every key is a function of the input's bigram occurrence list alone — the
fold starts from a fresh empty dict, so no state is shared between runs. -/
theorem claim_C10 (w1 w2 : List (List Char)) (h : w1 = w2) :
    countBigramsSparse w1 = countBigramsSparse w2 ∧
    (∀ k, (countBigramsSparse w1).val k = occCount k (corpusPairsS w1)) :=
  ⟨congrArg countBigramsSparse h, fun k => sparse_val w1 k⟩

/-- Witness instantiating C10 at two identical runs on the corpus ["a"]. -/
theorem claim_C10_witness :
    countBigramsSparse [['a']] = countBigramsSparse [['a']] ∧
    (∀ k, (countBigramsSparse [['a']]).val k
        = occCount k (corpusPairsS [['a']])) :=
  claim_C10 [['a']] [['a']] rfl
